import Mathlib

/-!
Verification of the Soma browser-extension word-replacement pipeline.

The development shallowly embeds the TypeScript sources:
  * `src/utils/ai-word-selector.ts` (candidate extraction, AI word
    selection with deterministic fallback, AI translation with static
    fallback tables),
  * `src/utils/dom.ts` (DOM word replacement and removal),
  * `src/utils/storage.ts` (settings persistence with defaults/merge),
  * `src/pages/content/index.tsx` (page controller / pipeline).

Strings are modelled as `List Char` (abbreviated `Str`), JavaScript
`Record<string,string>` objects as insertion-ordered association lists,
and the DOM as a tree of text nodes and elements.  External AI model
behaviour (availability probe, prompt/translate results, the random
shuffle comparator) is passed in as an explicit environment, mirroring
the branch structure of the source.
-/

/-- Strings of the embedded program, modelled as lists of characters. -/
abbrev Str := List Char

/-- ASCII lowercase conversion of a character (JS `toLowerCase` restricted
to the ASCII letters that survive the pipeline's filters). -/
def lowerChar (c : Char) : Char :=
  if 'A' ≤ c ∧ c ≤ 'Z' then Char.ofNat (c.toNat + 32) else c

/-- Lowercase an embedded string (JS `String.prototype.toLowerCase`). -/
def lowerStr (s : Str) : Str := s.map lowerChar

/-- Holds for ASCII lowercase letters `a`–`z` (the class `[a-z]`). -/
def isLowerAlpha (c : Char) : Bool := decide ('a' ≤ c ∧ c ≤ 'z')

/-- JS regular-expression whitespace class `\s`. -/
def isJSSpace (c : Char) : Bool :=
  c = ' ' ∨ c = '\t' ∨ c = '\n' ∨ c = '\x0b' ∨ c = '\x0c' ∨ c = '\r' ∨
  c = ' ' ∨ c = ' ' ∨ (' ' ≤ c ∧ c ≤ ' ') ∨
  c = ' ' ∨ c = ' ' ∨ c = ' ' ∨ c = ' ' ∨
  c = '　' ∨ c = '﻿'

/-- The stop-word set from `ai-word-selector.ts` (`STOP_WORDS`). -/
def STOP_WORDS : List Str :=
  ["a", "an", "and", "are", "as", "at", "be", "by", "for", "from",
   "has", "he", "in", "is", "it", "its", "of", "on", "that", "the",
   "to", "was", "will", "with", "they", "this", "but", "or", "not",
   "you", "all", "can", "had", "her", "his", "if", "one", "our",
   "out", "up", "we", "who", "when", "where", "which", "have", "been",
   "their", "what", "there", "more", "into", "than", "them", "some",
   "could", "would", "should", "about", "also", "other", "only", "very",
   "just", "now", "any", "such", "these", "those", "may", "much", "said",
   "then", "well", "even", "each", "she", "him", "my", "me", "no", "yes"
  ].map String.toList

/-- First-occurrence de-duplication, the order produced by
`Array.from(new Set(words))` in JavaScript: the head is kept and all its
later occurrences are dropped. -/
def dedupFirst {α : Type} [DecidableEq α] : List α → List α
  | [] => []
  | x :: xs => x :: (dedupFirst xs).filter (fun y => y ≠ x)

/-- The token filter of `extractCandidateWords`: length ≥ 4, not a stop
word, and entirely `[a-z]` (the regex `/^[a-z]+$/`). -/
def candidateFilter (w : Str) : Bool :=
  w.length ≥ 4 && !(STOP_WORDS.contains w) && (!w.isEmpty && w.all isLowerAlpha)

/-- Model of `extractCandidateWords` from `ai-word-selector.ts`: lowercase the page
text, replace every character outside `[a-z\s]` by a space, split on
whitespace, filter, and de-duplicate preserving first occurrence. -/
def extractCandidateWords (pageText : Str) : List Str :=
  let lowered := pageText.map lowerChar
  let replaced := lowered.map (fun c => if isLowerAlpha c || isJSSpace c then c else ' ')
  let words := (replaced.splitOnP (fun c => isJSSpace c)).filter candidateFilter
  dedupFirst words

/-- The difficulty levels of `src/types.ts` (`DifficultyLevel`). -/
inductive DifficultyLevel where
  | beginner
  | intermediate
  | advanced
deriving DecidableEq, Repr

/-- Model of `getWordCountForDifficulty` from `ai-word-selector.ts`. -/
def getWordCountForDifficulty (difficulty : DifficultyLevel) : Nat :=
  match difficulty with
  | .beginner => 15
  | .intermediate => 30
  | .advanced => 50

/-- Availability states of the Chrome AI model APIs. -/
inductive Availability where
  | available
  | downloadable
  | downloading
  | unavailable
deriving DecidableEq, Repr

/-- Environment for `selectWordsWithAI`: the language-model availability
probe, the user-activation flag, whether the model call throws, the JSON
array extracted from the model response (`none` models "no JSON array
found in the response, the parse threw, or the result is not an array"),
and the permutation produced by the random sort comparator used for the
intermediate fallback. -/
structure SelectEnv where
  availability : Availability
  userActive : Bool
  modelThrows : Bool
  modelResponseWords : Option (List Str)
  shuffle : List Str → List Str

/-- Model of `fallbackWordSelection` from `ai-word-selector.ts`: stable sort by
length ascending for beginner, descending for advanced, and the
random-comparator shuffle for intermediate, then take the first
`min wordCount length` words. -/
def fallbackWordSelection (shuffle : List Str → List Str)
    (candidateWords : List Str) (difficulty : DifficultyLevel) : List Str :=
  let wordCount := getWordCountForDifficulty difficulty
  let sortedWords :=
    match difficulty with
    | .beginner => candidateWords.mergeSort (fun a b => a.length ≤ b.length)
    | .advanced => candidateWords.mergeSort (fun a b => b.length ≤ a.length)
    | .intermediate => shuffle candidateWords
  sortedWords.take (min wordCount sortedWords.length)

/-- Model of `selectWordsWithAI` from `ai-word-selector.ts`.  The model path is
reached when the model is available, or downloadable with user activation;
its response is parsed and filtered to candidate members
(case-insensitively); every failure branch routes to
`fallbackWordSelection`. -/
def selectWordsWithAI (env : SelectEnv) (candidateWords : List Str)
    (difficulty : DifficultyLevel) : List Str :=
  let fallback := fallbackWordSelection env.shuffle candidateWords difficulty
  let modelPath :=
    if env.modelThrows then fallback
    else
      match env.modelResponseWords with
      | none => fallback
      | some selectedWords =>
        if selectedWords.isEmpty then fallback
        else selectedWords.filter (fun w => candidateWords.contains (lowerStr w))
  match env.availability with
  | .available => modelPath
  | .downloadable => if env.userActive then modelPath else fallback
  | .downloading => fallback
  | .unavailable => fallback


/-- Association-list model of a JavaScript `Record<string, string>`:
`m[k] = v` updates an existing key in place or appends a new entry. -/
def recInsert (m : List (Str × Str)) (k v : Str) : List (Str × Str) :=
  if m.any (fun p => p.1 = k) then m.map (fun p => if p.1 = k then (k, v) else p)
  else m ++ [(k, v)]

/-- Key lookup in the record model (`m[k]`, `none` for `undefined`). -/
def recLookup (m : List (Str × Str)) (k : Str) : Option Str :=
  (m.find? (fun p => p.1 = k)).map (fun p => p.2)

/-- Environment for `translateWordsWithAI`: the translator availability
probe, the user-activation flag, whether the batched `Promise.all` call
throws, and the per-word translator result (`none` models a per-word
rejection, which the source maps back to the original word). -/
structure TransEnv where
  availability : Availability
  userActive : Bool
  batchThrows : Bool
  perWord : Str -> Option Str

/-- The static Spanish fallback table from `getFallbackTranslations`
(including the `semmana` misspelling present in the source). -/
def staticTranslations_es : List (Str × Str) :=
  ([("house", "casa"), ("food", "comida"), ("water", "agua"),
    ("book", "libro"), ("time", "tiempo"), ("person", "persona"),
    ("year", "a\u00f1o"), ("work", "trabajo"), ("life", "vida"),
    ("hand", "mano"), ("part", "parte"), ("child", "ni\u00f1o"),
    ("woman", "mujer"), ("place", "lugar"), ("week", "semmana"),
    ("case", "caso"), ("point", "punto"), ("government", "gobierno"),
    ("company", "empresa"), ("number", "n\u00famero")] :
      List (String × String)).map (fun p => (p.1.toList, p.2.toList))

/-- The static French fallback table from `getFallbackTranslations`. -/
def staticTranslations_fr : List (Str × Str) :=
  ([("house", "maison"), ("food", "nourriture"), ("water", "eau"),
    ("book", "livre"), ("time", "temps"), ("person", "personne"),
    ("year", "ann\u00e9e"), ("work", "travail"), ("life", "vie"),
    ("hand", "main"), ("part", "partie"), ("child", "enfant"),
    ("woman", "femme"), ("place", "lieu"), ("week", "semaine"),
    ("case", "cas"), ("point", "point"), ("government", "gouvernement"),
    ("company", "entreprise"), ("number", "nombre")] :
      List (String × String)).map (fun p => (p.1.toList, p.2.toList))

/-- The static German fallback table from `getFallbackTranslations`. -/
def staticTranslations_de : List (Str × Str) :=
  ([("house", "Haus"), ("food", "Essen"), ("water", "Wasser"),
    ("book", "Buch"), ("time", "Zeit"), ("person", "Person"),
    ("year", "Jahr"), ("work", "Arbeit"), ("life", "Leben"),
    ("hand", "Hand"), ("part", "Teil"), ("child", "Kind"),
    ("woman", "Frau"), ("place", "Ort"), ("week", "Woche"),
    ("case", "Fall"), ("point", "Punkt"), ("government", "Regierung"),
    ("company", "Firma"), ("number", "Nummer")] :
      List (String × String)).map (fun p => (p.1.toList, p.2.toList))

/-- Model of `staticTranslations[targetLanguage] || {}` from the source. -/
def staticTranslations (targetLanguage : Str) : List (Str × Str) :=
  if targetLanguage = "es".toList then staticTranslations_es
  else if targetLanguage = "fr".toList then staticTranslations_fr
  else if targetLanguage = "de".toList then staticTranslations_de
  else []

/-- Model of `getFallbackTranslations` from `ai-word-selector.ts`:
`translationMap[word] = translations[word] || word`. -/
def getFallbackTranslations (words : List Str) (targetLanguage : Str) :
    List (Str × Str) :=
  let translations := staticTranslations targetLanguage
  words.foldl
    (fun m word =>
      recInsert m word
        (match recLookup translations word with
         | some t => if t.isEmpty then word else t
         | none => word))
    []

/-- Model of `translateWordsWithAI` from `ai-word-selector.ts`: the model path
translates every word concurrently, mapping a per-word failure to the
original word; unavailability, missing user activation, or a batch
failure fall back to the static tables. -/
def translateWordsWithAI (env : TransEnv) (words : List Str)
    (targetLanguage : Str) : List (Str × Str) :=
  let modelPath :=
    if env.batchThrows then getFallbackTranslations words targetLanguage
    else
      words.foldl
        (fun m word => recInsert m word ((env.perWord word).getD word)) []
  match env.availability with
  | .available => modelPath
  | .downloadable =>
      if env.userActive then modelPath
      else getFallbackTranslations words targetLanguage
  | .downloading => getFallbackTranslations words targetLanguage
  | .unavailable => getFallbackTranslations words targetLanguage

/-- Model of `SomaUserSettings` from `src/types.ts`. -/
structure SomaUserSettings where
  isEnabled : Bool
  targetLanguage : Str
  difficulty : DifficultyLevel
deriving DecidableEq, Repr

/-- A stored settings object in which any field may be absent
(`Partial<SomaUserSettings>`). -/
structure PartialSettings where
  isEnabled : Option Bool
  targetLanguage : Option Str
  difficulty : Option DifficultyLevel
deriving DecidableEq, Repr

/-- Model of `DEFAULT_SETTINGS` from `src/types.ts`. -/
def DEFAULT_SETTINGS : SomaUserSettings :=
  { isEnabled := true, targetLanguage := "es".toList, difficulty := .beginner }

/-- Model of `getUserSettings` from `src/utils/storage.ts`: spread the stored
record over the defaults (`{...DEFAULT_SETTINGS, ...result[KEY]}`), or
return the defaults when nothing is stored. -/
def getUserSettings : Option PartialSettings → SomaUserSettings
  | some s =>
      { isEnabled := s.isEnabled.getD DEFAULT_SETTINGS.isEnabled,
        targetLanguage := s.targetLanguage.getD DEFAULT_SETTINGS.targetLanguage,
        difficulty := s.difficulty.getD DEFAULT_SETTINGS.difficulty }
  | none => DEFAULT_SETTINGS

/-- Model of `setUserSettings` from `src/utils/storage.ts`: read the current
settings (with defaults), spread the partial update over them, and store
the complete merged record. -/
def setUserSettings (store : Option PartialSettings)
    (settings : PartialSettings) : Option PartialSettings :=
  let currentSettings := getUserSettings store
  let updatedSettings : SomaUserSettings :=
    { isEnabled := settings.isEnabled.getD currentSettings.isEnabled,
      targetLanguage := settings.targetLanguage.getD currentSettings.targetLanguage,
      difficulty := settings.difficulty.getD currentSettings.difficulty }
  some { isEnabled := some updatedSettings.isEnabled,
         targetLanguage := some updatedSettings.targetLanguage,
         difficulty := some updatedSettings.difficulty }


/-- Tags excluded from text processing (`EXCLUDED_TAGS` in `dom.ts`). -/
def EXCLUDED_TAGS : List String :=
  ["SCRIPT", "STYLE", "NOSCRIPT", "IFRAME", "OBJECT", "EMBED", "TEXTAREA",
   "INPUT", "SELECT", "BUTTON", "CODE", "PRE", "SVG", "CANVAS", "SOMA-WORD"]

/-- DOM model: text nodes and elements.  An element carries its tag name
(uppercase, as `tagName` reports it), its `isContentEditable` flag,
whether its computed style hides it (`display: none` or
`visibility: hidden`), its attributes, and its children. -/
inductive DNode where
  | text (s : Str)
  | elem (tag : String) (editable : Bool) (hidden : Bool)
      (attrs : List (String × Str)) (children : List DNode)

/-- Model of `getAttribute` on the attribute list of an element. -/
def getAttr (attrs : List (String × Str)) (name : String) : Option Str :=
  (attrs.find? (fun p => p.1 = name)).map (fun p => p.2)

/-- The tree-walker filter of `getAllTextNodes` restricted to the parent
element: the parent's tag is not excluded, the parent is not
content-editable, and the parent is not hidden. -/
def acceptParent (tag : String) (editable hidden : Bool) : Bool :=
  !(EXCLUDED_TAGS.contains tag) && !editable && !hidden

/-- JS regular-expression word character class `\w` (`[A-Za-z0-9_]`). -/
def isWordChar (c : Char) : Bool :=
  ('a' ≤ c ∧ c ≤ 'z') ∨ ('A' ≤ c ∧ c ≤ 'Z') ∨ ('0' ≤ c ∧ c ≤ '9') ∨ c = '_'

/-- Whether the character at position `i` of `s` is a word character
(out-of-range positions count as non-word). -/
def wordCharAt (s : Str) (i : Nat) : Bool :=
  match s.drop i with
  | [] => false
  | c :: _ => isWordChar c

/-- The `\b` assertion of JS regular expressions at position `i`. -/
def boundaryAt (s : Str) (i : Nat) : Bool :=
  (if i = 0 then false else wordCharAt s (i - 1)) != wordCharAt s i

/-- Case-insensitive literal prefix match (`icStartsWith w s` holds when
`s` starts with `w` up to ASCII case). -/
def icStartsWith : Str → Str → Bool
  | [], _ => true
  | _ :: _, [] => false
  | c :: cs, d :: ds => lowerChar d = lowerChar c && icStartsWith cs ds

/-- Whether the regex ``\b<word>\b`` (with the word taken literally, as
produced by `escapeRegex`) matches `s` at position `i`, case-insensitively. -/
def matchAt (s word : Str) (i : Nat) : Bool :=
  icStartsWith word (s.drop i) && boundaryAt s i && boundaryAt s (i + word.length)

/-- Index of the leftmost match of ``\b<word>\b`` in `s`
(`text.match(regex)` / `match.index`). -/
def firstMatchIdx (s word : Str) : Option Nat :=
  (List.range (s.length + 1)).find? (fun i => matchAt s word i)

/-- Truthiness of `text.trim()`: the node holds a non-whitespace character. -/
def strTrimNonempty (s : Str) : Bool := s.any (fun c => !(isJSSpace c))

/-- The `soma-word` element built by `replaceWordInTextNode`, holding the
translation as its text content and the three data attributes. -/
def somaWordElem (matched translation targetLanguage : Str) : DNode :=
  .elem "SOMA-WORD" false false
    [("data-original", matched), ("data-translation", translation),
     ("data-language", targetLanguage)]
    (if translation.isEmpty then [] else [.text translation])

/-- Model of `replaceWordInTextNode` from `dom.ts`: split the text node at the
first whole-word match into before-text, `soma-word` marker, and
after-text (empty fragments omitted); no match leaves the node intact. -/
def replaceWordInTextNode (s word translation targetLanguage : Str) :
    List DNode :=
  match firstMatchIdx s word with
  | none => [.text s]
  | some i =>
      let matched := (s.drop i).take word.length
      let beforeText := s.take i
      let afterText := s.drop (i + word.length)
      (if beforeText.isEmpty then [] else [DNode.text beforeText]) ++
      [somaWordElem matched translation targetLanguage] ++
      (if afterText.isEmpty then [] else [DNode.text afterText])

/-- One pass of `replaceWordsInDOM` for a single word over a node list:
every text node accepted by the walker (parent accepted, non-blank) whose
content matches the word is split at its first match.  `ok` records
whether the surrounding parent element passes the walker filter. -/
def replacePass (word translation targetLanguage : Str) :
    Bool → List DNode → List DNode
  | _, [] => []
  | ok, .text s :: rest =>
      (if ok && strTrimNonempty s && (firstMatchIdx s word).isSome then
        replaceWordInTextNode s word translation targetLanguage
       else [.text s]) ++ replacePass word translation targetLanguage ok rest
  | ok, .elem tag ed hid attrs cs :: rest =>
      .elem tag ed hid attrs
        (replacePass word translation targetLanguage
          (acceptParent tag ed hid) cs) ::
      replacePass word translation targetLanguage ok rest

/-- Model of `removeAllReplacements` from `dom.ts` on a node list: each
`soma-word` element with a truthy `data-original` attribute is replaced
by a text node holding that attribute; all other nodes are kept (their
children processed recursively). -/
def removeAllReplacementsL : List DNode → List DNode
  | [] => []
  | .text s :: rest => .text s :: removeAllReplacementsL rest
  | .elem tag ed hid attrs cs :: rest =>
      if tag = "SOMA-WORD" ∧ (getAttr attrs "data-original").getD [] ≠ [] then
        .text ((getAttr attrs "data-original").getD []) ::
          removeAllReplacementsL rest
      else
        .elem tag ed hid attrs (removeAllReplacementsL cs) ::
          removeAllReplacementsL rest

/-- Model of `textContent` of a node list: concatenation of all descendant text. -/
def textContentL : List DNode → Str
  | [] => []
  | .text s :: rest => s ++ textContentL rest
  | .elem _ _ _ _ cs :: rest => textContentL cs ++ textContentL rest

/-- No `soma-word` replacement marker occurs anywhere in the node list. -/
def noMarkersL : List DNode → Bool
  | [] => true
  | .text _ :: rest => noMarkersL rest
  | .elem tag _ _ _ cs :: rest =>
      tag ≠ "SOMA-WORD" && noMarkersL cs && noMarkersL rest

/-- The text nodes collected by `getAllTextNodes` (their contents, in
tree order), given the walker acceptance of the root element. -/
def getAllTextNodesL : Bool → List DNode → List Str
  | _, [] => []
  | ok, .text s :: rest =>
      (if ok && strTrimNonempty s then [s] else []) ++ getAllTextNodesL ok rest
  | ok, .elem tag ed hid _ cs :: rest =>
      getAllTextNodesL (acceptParent tag ed hid) cs ++ getAllTextNodesL ok rest

/-- Model of `replaceWordsInDOM` from `dom.ts`: for each entry of the translation
map in order, run one replacement pass over the root's children. -/
def replaceWordsInDOM (translationMap : List (Str × Str))
    (targetLanguage : Str) : DNode → DNode
  | .text s => .text s
  | .elem tag ed hid attrs cs =>
      .elem tag ed hid attrs
        (translationMap.foldl
          (fun t p =>
            replacePass p.1 p.2 targetLanguage (acceptParent tag ed hid) t)
          cs)

/-- Model of `removeAllReplacements` on a root element (`querySelectorAll` only
selects descendants, never the root itself). -/
def removeAllReplacements : DNode → DNode
  | .text s => .text s
  | .elem tag ed hid attrs cs =>
      .elem tag ed hid attrs (removeAllReplacementsL cs)

/-- Model of `textContent` of a root node. -/
def textContent : DNode → Str
  | .text s => s
  | .elem _ _ _ _ cs => textContentL cs

/-- The root contains no replacement marker among its descendants. -/
def noMarkers : DNode → Bool
  | .text _ => true
  | .elem _ _ _ _ cs => noMarkersL cs

/-- Model of `extractPageText` from `dom.ts`: join the collected text nodes with
single spaces. -/
def extractPageText : DNode → Str
  | .text _ => []
  | .elem tag ed hid _ cs =>
      List.intercalate (" ".toList)
        (getAllTextNodesL (acceptParent tag ed hid) cs)


/-- State owned by the content script: the `isProcessing` re-entrancy
guard, the `isProcessed` flag, and the page DOM. -/
structure PageState where
  isProcessing : Bool
  isProcessed : Bool
  dom : DNode

/-- Which pipeline steps a run actually performed (instrumentation of the
calls made by `processPageWithAI`). -/
structure RunLog where
  removeCalled : Bool
  selectCalled : Bool
  translateCalled : Bool
  replaceCalled : Bool
deriving DecidableEq, Repr

/-- Environment of one pipeline run: the stored settings and the two AI
environments. -/
structure PipelineEnv where
  settings : SomaUserSettings
  selEnv : SelectEnv
  trEnv : TransEnv

/-- Model of `processPageWithAI` from `src/pages/content/index.tsx`: guard
against concurrent and repeated runs, handle the disabled case (removing
markers when processed), otherwise run extraction, selection,
translation, and DOM replacement in sequence, with early returns when no
candidates or no selected words are found.  Returns the new state and
the log of steps performed. -/
def processPageWithAI (env : PipelineEnv) (force : Bool) (st : PageState) :
    PageState × RunLog :=
  let noLog : RunLog := ⟨false, false, false, false⟩
  if st.isProcessing then (st, noLog)
  else if st.isProcessed && !force then (st, noLog)
  else
    let settings := env.settings
    if !settings.isEnabled then
      if st.isProcessed then
        ({ isProcessing := false, isProcessed := false,
           dom := removeAllReplacements st.dom },
         { noLog with removeCalled := true })
      else ({ st with isProcessing := false }, noLog)
    else
      let dom1 := if st.isProcessed then removeAllReplacements st.dom else st.dom
      let removedFirst := st.isProcessed
      let pageText := extractPageText dom1
      let candidateWords := extractCandidateWords pageText
      if candidateWords.isEmpty then
        ({ isProcessing := false, isProcessed := st.isProcessed, dom := dom1 },
         { noLog with removeCalled := removedFirst })
      else
        let selectedWords :=
          selectWordsWithAI env.selEnv candidateWords settings.difficulty
        if selectedWords.isEmpty then
          ({ isProcessing := false, isProcessed := st.isProcessed, dom := dom1 },
           { noLog with removeCalled := removedFirst, selectCalled := true })
        else
          let translationMap :=
            translateWordsWithAI env.trEnv selectedWords settings.targetLanguage
          let dom2 := replaceWordsInDOM translationMap settings.targetLanguage dom1
          ({ isProcessing := false, isProcessed := true, dom := dom2 },
           { removeCalled := removedFirst, selectCalled := true,
             translateCalled := true, replaceCalled := true })

/-- Abstract controller state for the re-entrancy analysis: the two
guard flags plus a ghost count of runs currently in flight. -/
structure CtrlState where
  isProcessing : Bool
  isProcessed : Bool
  activeRuns : Nat
deriving DecidableEq, Repr

/-- Controller events: a pipeline trigger (`processPageWithAI(force)`
reaching its synchronous prologue) or the completion of the run in
flight (its `finally` block, with the resulting `isProcessed` value). -/
inductive CtrlEvent where
  | trigger (force : Bool)
  | finish (processedAfter : Bool)

/-- The initial controller state of the content script
(`isProcessed = false`, `isProcessing = false`). -/
def ctrlInit : CtrlState :=
  { isProcessing := false, isProcessed := false, activeRuns := 0 }

/-- One controller step.  A trigger while `isProcessing` returns
immediately (the run is dropped, not queued); a trigger while processed
without `force` is also dropped; otherwise the prologue sets
`isProcessing` and a run starts.  A finish clears the guard. -/
def ctrlStep (s : CtrlState) : CtrlEvent → CtrlState
  | .trigger force =>
      if s.isProcessing then s
      else if s.isProcessed && !force then s
      else { s with isProcessing := true, activeRuns := s.activeRuns + 1 }
  | .finish processedAfter =>
      if s.isProcessing then
        { isProcessing := false, isProcessed := processedAfter,
          activeRuns := s.activeRuns - 1 }
      else s

/-- States reachable from the initial controller state. -/
inductive CtrlReachable : CtrlState → Prop where
  | init : CtrlReachable ctrlInit
  | step (s : CtrlState) (e : CtrlEvent) :
      CtrlReachable s → CtrlReachable (ctrlStep s e)

/-! ## Theorems -/

theorem mem_dedupFirst {α : Type} [DecidableEq α] (l : List α) (a : α) :
    a ∈ dedupFirst l ↔ a ∈ l := by
  induction l with
  | nil => simp [dedupFirst]
  | cons x xs ih =>
    simp only [dedupFirst, List.mem_cons, List.mem_filter, ih]
    constructor
    · rintro (h | ⟨h, _⟩)
      · exact Or.inl h
      · exact Or.inr h
    · rintro (h | h)
      · exact Or.inl h
      · by_cases hx : a = x
        · exact Or.inl hx
        · exact Or.inr ⟨h, by simpa using hx⟩

theorem nodup_dedupFirst {α : Type} [DecidableEq α] (l : List α) :
    (dedupFirst l).Nodup := by
  induction l with
  | nil => simp [dedupFirst]
  | cons x xs ih =>
    simp only [dedupFirst, List.nodup_cons]
    refine ⟨fun hmem => ?_, ih.filter _⟩
    simp only [List.mem_filter] at hmem
    simpa using hmem.2

/-- C4. `extractCandidateWords` returns only tokens that are entirely
lowercase alphabetic, of length at least 4, and not in the stop-word set,
with duplicates collapsed; the empty input yields an empty result. -/
theorem extractCandidateWords_sound (pageText : Str) :
    (∀ w ∈ extractCandidateWords pageText,
        w.length ≥ 4 ∧ w.all isLowerAlpha = true ∧ w ∉ STOP_WORDS) ∧
    (extractCandidateWords pageText).Nodup ∧
    extractCandidateWords ([] : Str) = [] := by
  refine ⟨?_, ?_, by simp [extractCandidateWords, dedupFirst, candidateFilter]⟩
  · intro w hw
    unfold extractCandidateWords at hw
    rw [mem_dedupFirst] at hw
    simp only [List.mem_filter, candidateFilter] at hw
    obtain ⟨-, hf⟩ := hw
    simp only [Bool.and_eq_true, Bool.not_eq_true', ge_iff_le, decide_eq_true_eq] at hf
    refine ⟨hf.1.1, hf.2.2, ?_⟩
    intro hmem
    have hc : STOP_WORDS.contains w = false := hf.1.2
    simp only [List.contains_eq_any_beq, List.any_eq_false] at hc
    exact absurd (by simp : (w == w) = true) (by simpa using hc w hmem)
  · unfold extractCandidateWords
    exact nodup_dedupFirst _

theorem toNat_ofNat_valid (n : Nat) (h : n.isValidChar) :
    (Char.ofNat n).toNat = n := by
  unfold Char.ofNat
  rw [dif_pos h]
  unfold Char.ofNatAux Char.toNat
  simp [UInt32.toNat, UInt32.ofNatCore]

theorem upper_toNat (c : Char) (h : 'A' ≤ c ∧ c ≤ 'Z') :
    65 ≤ c.toNat ∧ c.toNat ≤ 90 := by
  obtain ⟨h1, h2⟩ := h
  rw [Char.le_def] at h1 h2
  exact ⟨h1, h2⟩

theorem lowerChar_idem (c : Char) : lowerChar (lowerChar c) = lowerChar c := by
  unfold lowerChar
  by_cases h : 'A' ≤ c ∧ c ≤ 'Z'
  · rw [if_pos h]
    have hv : (c.toNat + 32).isValidChar := by
      obtain ⟨_, h2⟩ := upper_toNat c h
      left
      omega
    have ht : (Char.ofNat (c.toNat + 32)).toNat = c.toNat + 32 :=
      toNat_ofNat_valid _ hv
    rw [if_neg]
    intro hcon
    obtain ⟨_, h2'⟩ := hcon
    rw [Char.le_def] at h2'
    obtain ⟨h1, _⟩ := upper_toNat c h
    have : (Char.ofNat (c.toNat + 32)).toNat ≤ 90 := h2'
    omega
  · rw [if_neg h, if_neg h]

theorem lowerStr_idem (s : Str) : lowerStr (lowerStr s) = lowerStr s := by
  simp only [lowerStr, List.map_map]
  exact List.map_congr_left (fun c _ => lowerChar_idem c)

theorem take_min_length {α : Type} (l : List α) (n : Nat) :
    l.take (min n l.length) = l.take n := by
  apply List.take_eq_take.mpr
  omega

/-- C6. A trigger received while a run is in flight is dropped (the
state is unchanged, so nothing is queued); two immediate triggers from
the initial state leave exactly one run active; and no reachable
controller state has two runs in flight. -/
theorem processPage_reentrancy :
    (∀ (s : CtrlState) (f : Bool),
        s.isProcessing = true → ctrlStep s (.trigger f) = s) ∧
    (∀ f1 f2 : Bool,
        ctrlStep (ctrlStep ctrlInit (.trigger f1)) (.trigger f2) =
          ctrlStep ctrlInit (.trigger f1) ∧
        (ctrlStep (ctrlStep ctrlInit (.trigger f1)) (.trigger f2)).activeRuns
          = 1) ∧
    (∀ s : CtrlState, CtrlReachable s → s.activeRuns ≤ 1) := by
  refine ⟨fun s f h => by simp [ctrlStep, h], by decide, ?_⟩
  have key : ∀ s : CtrlState, CtrlReachable s →
      (s.isProcessing = true → s.activeRuns = 1) ∧
      (s.isProcessing = false → s.activeRuns = 0) := by
    intro s h
    induction h with
    | init => simp [ctrlInit]
    | step s e _ ih =>
      obtain ⟨p, q, n⟩ := s
      obtain ⟨ih1, ih2⟩ := ih
      cases e with
      | trigger f =>
        cases p <;> cases q <;> cases f <;>
          simp_all [ctrlStep]
      | finish pa =>
        cases p <;> simp_all [ctrlStep]
  intro s h
  obtain ⟨k1, k2⟩ := key s h
  cases hp : s.isProcessing
  · have := k2 hp
    omega
  · have := k1 hp
    omega

/-- Witness for the hypotheses of `processPage_reentrancy`: a processing
state drops any trigger, and the reachability bound holds at the state
after one trigger from the initial state. -/
theorem processPage_reentrancy_witness :
    ctrlStep ⟨true, false, 1⟩ (.trigger true) = ⟨true, false, 1⟩ ∧
    (ctrlStep ctrlInit (.trigger true)).activeRuns ≤ 1 :=
  ⟨processPage_reentrancy.1 ⟨true, false, 1⟩ true rfl,
   processPage_reentrancy.2.2 _
     (CtrlReachable.step ctrlInit (.trigger true) CtrlReachable.init)⟩

/-- C9. `setUserSettings` overwrites exactly the fields present in
the partial update and retains the previously observable values of all
other fields; `getUserSettings` fills every absent field (including an
entirely absent record) with its default. -/
theorem settings_merge_and_defaults :
    ∀ (store : Option PartialSettings) (p : PartialSettings),
      (∀ b, p.isEnabled = some b →
          (getUserSettings (setUserSettings store p)).isEnabled = b) ∧
      (p.isEnabled = none →
          (getUserSettings (setUserSettings store p)).isEnabled =
            (getUserSettings store).isEnabled) ∧
      (∀ t, p.targetLanguage = some t →
          (getUserSettings (setUserSettings store p)).targetLanguage = t) ∧
      (p.targetLanguage = none →
          (getUserSettings (setUserSettings store p)).targetLanguage =
            (getUserSettings store).targetLanguage) ∧
      (∀ d, p.difficulty = some d →
          (getUserSettings (setUserSettings store p)).difficulty = d) ∧
      (p.difficulty = none →
          (getUserSettings (setUserSettings store p)).difficulty =
            (getUserSettings store).difficulty) ∧
      getUserSettings none = DEFAULT_SETTINGS ∧
      (∀ q : PartialSettings,
        (q.isEnabled = none →
            (getUserSettings (some q)).isEnabled = DEFAULT_SETTINGS.isEnabled) ∧
        (q.targetLanguage = none →
            (getUserSettings (some q)).targetLanguage =
              DEFAULT_SETTINGS.targetLanguage) ∧
        (q.difficulty = none →
            (getUserSettings (some q)).difficulty =
              DEFAULT_SETTINGS.difficulty)) := by
  intro store p
  refine ⟨fun b hb => ?_, fun hb => ?_, fun t ht => ?_, fun ht => ?_,
          fun d hd => ?_, fun hd => ?_, rfl, fun q => ⟨fun h => ?_, fun h => ?_, fun h => ?_⟩⟩ <;>
    simp [getUserSettings, setUserSettings, *]

/-- Witness for `settings_merge_and_defaults` at a concrete store and
partial update: the updated field is overwritten and an untouched field
keeps its stored value. -/
theorem settings_merge_and_defaults_witness :
    (getUserSettings
      (setUserSettings (some ⟨some false, none, some .advanced⟩)
        ⟨none, some ("fr".toList), none⟩)).targetLanguage = "fr".toList ∧
    (getUserSettings
      (setUserSettings (some ⟨some false, none, some .advanced⟩)
        ⟨none, some ("fr".toList), none⟩)).isEnabled =
      (getUserSettings (some ⟨some false, none, some .advanced⟩)).isEnabled :=
  ⟨(settings_merge_and_defaults (some ⟨some false, none, some .advanced⟩)
      ⟨none, some ("fr".toList), none⟩).2.2.1 ("fr".toList) rfl,
   (settings_merge_and_defaults (some ⟨some false, none, some .advanced⟩)
      ⟨none, some ("fr".toList), none⟩).2.1 rfl⟩

theorem recInsert_hasKey (m : List (Str × Str)) (k v q : Str) :
    (∃ p ∈ recInsert m k v, p.1 = q) ↔ (q = k ∨ ∃ p ∈ m, p.1 = q) := by
  unfold recInsert
  by_cases h : m.any (fun p => p.1 = k) = true
  · rw [if_pos h]
    simp only [List.any_eq_true, decide_eq_true_eq] at h
    constructor
    · rintro ⟨p', hp', hq⟩
      rcases List.mem_map.mp hp' with ⟨p, hp, rfl⟩
      by_cases hk : p.1 = k
      · left
        rw [← hq]
        simp [hk]
      · right
        exact ⟨p, hp, by rw [← hq]; simp [hk]⟩
    · rintro (rfl | ⟨p, hp, hq⟩)
      · obtain ⟨x, hx, hxk⟩ := h
        exact ⟨(q, v), List.mem_map.mpr ⟨x, hx, by simp [hxk]⟩, rfl⟩
      · by_cases hk : p.1 = k
        · obtain ⟨x, hx, hxk⟩ := h
          exact ⟨(k, v), List.mem_map.mpr ⟨x, hx, by simp [hxk]⟩, by
            rw [← hq, hk]⟩
        · exact ⟨p, List.mem_map.mpr ⟨p, hp, by simp [hk]⟩, hq⟩
  · rw [if_neg h]
    simp only [List.mem_append, List.mem_singleton]
    constructor
    · rintro ⟨p, hp | rfl, hq⟩
      · exact Or.inr ⟨p, hp, hq⟩
      · exact Or.inl hq.symm
    · rintro (rfl | ⟨p, hp, hq⟩)
      · exact ⟨(q, v), Or.inr rfl, rfl⟩
      · exact ⟨p, Or.inl hp, hq⟩

theorem recInsert_length (m : List (Str × Str)) (k v : Str) :
    (recInsert m k v).length =
      if m.any (fun p => p.1 = k) then m.length else m.length + 1 := by
  unfold recInsert
  split <;> simp

theorem recLookup_isSome_iff (m : List (Str × Str)) (q : Str) :
    (recLookup m q).isSome = true ↔ ∃ p ∈ m, p.1 = q := by
  simp [recLookup, List.find?_isSome]

theorem foldl_recInsert_hasKey (f : Str → Str) (words : List Str) :
    ∀ (m : List (Str × Str)) (w : Str),
      ((∃ p ∈ m, p.1 = w) ∨ w ∈ words) →
      ∃ p ∈ words.foldl (fun acc word => recInsert acc word (f word)) m,
        p.1 = w := by
  induction words with
  | nil =>
    intro m w h
    simpa using h
  | cons a as ih =>
    intro m w h
    simp only [List.foldl_cons]
    apply ih
    rcases h with h | h
    · exact Or.inl ((recInsert_hasKey m a (f a) w).mpr (Or.inr h))
    · rcases List.mem_cons.mp h with rfl | h
      · exact Or.inl ((recInsert_hasKey m w (f w) w).mpr (Or.inl rfl))
      · exact Or.inr h

theorem foldl_recInsert_length (f : Str → Str) (words : List Str) :
    ∀ m : List (Str × Str), words.Nodup →
      (∀ w ∈ words, ¬ ∃ p ∈ m, p.1 = w) →
      (words.foldl (fun acc word => recInsert acc word (f word)) m).length =
        m.length + words.length := by
  induction words with
  | nil => simp
  | cons a as ih =>
    intro m hnd hdis
    simp only [List.foldl_cons]
    have hna : ¬ m.any (fun p => p.1 = a) = true := by
      intro hany
      simp only [List.any_eq_true, decide_eq_true_eq] at hany
      exact hdis a (List.mem_cons_self a as) hany
    rw [ih (recInsert m a (f a)) (List.nodup_cons.mp hnd).2 ?_,
        recInsert_length, if_neg hna]
    · simp only [List.length_cons]
      omega
    · intro w hw hex
      rcases (recInsert_hasKey m a (f a) w).mp hex with rfl | hex
      · exact (List.nodup_cons.mp hnd).1 hw
      · exact hdis w (List.mem_cons_of_mem a hw) hex

/-- C3. `translateWordsWithAI` (model path and fallback path alike)
returns a map with an entry for every input word, and for duplicate-free
input the map has exactly as many entries as there are input words. -/
theorem translateWords_total :
    ∀ (env : TransEnv) (words : List Str) (targetLanguage : Str),
      (∀ w ∈ words,
        (recLookup (translateWordsWithAI env words targetLanguage) w).isSome
          = true) ∧
      (words.Nodup →
        (translateWordsWithAI env words targetLanguage).length =
          words.length) := by
  intro env words targetLanguage
  have hshape :
      translateWordsWithAI env words targetLanguage =
        words.foldl
          (fun acc word =>
            recInsert acc word ((env.perWord word).getD word)) [] ∨
      translateWordsWithAI env words targetLanguage =
        words.foldl
          (fun acc word =>
            recInsert acc word
              (match recLookup (staticTranslations targetLanguage) word with
               | some t => if t.isEmpty then word else t
               | none => word)) [] := by
    unfold translateWordsWithAI
    cases hav : env.availability <;> by_cases hb : env.batchThrows <;>
      by_cases hu : env.userActive <;>
      simp [hav, hb, hu, getFallbackTranslations]
  rcases hshape with h | h <;> rw [h] <;> constructor
  · intro w hw
    rw [recLookup_isSome_iff]
    exact foldl_recInsert_hasKey
      (fun word => (env.perWord word).getD word) words [] w (Or.inr hw)
  · intro hnd
    rw [foldl_recInsert_length
      (fun word => (env.perWord word).getD word) words [] hnd (by simp)]
    simp
  · intro w hw
    rw [recLookup_isSome_iff]
    exact foldl_recInsert_hasKey
      (fun word =>
        match recLookup (staticTranslations targetLanguage) word with
        | some t => if t.isEmpty then word else t
        | none => word) words [] w (Or.inr hw)
  · intro hnd
    rw [foldl_recInsert_length
      (fun word =>
        match recLookup (staticTranslations targetLanguage) word with
        | some t => if t.isEmpty then word else t
        | none => word) words [] hnd (by simp)]
    simp

/-- Witness for `translateWords_total` on a concrete fallback-path call:
the single input word receives an entry and the map size matches. -/
theorem translateWords_total_witness :
    (recLookup
      (translateWordsWithAI ⟨.unavailable, false, false, fun _ => none⟩
        ["house".toList] ("es".toList)) ("house".toList)).isSome = true ∧
    (translateWordsWithAI ⟨.unavailable, false, false, fun _ => none⟩
        ["house".toList] ("es".toList)).length = 1 :=
  ⟨(translateWords_total ⟨.unavailable, false, false, fun _ => none⟩
      ["house".toList] ("es".toList)).1 ("house".toList) (by simp),
   (translateWords_total ⟨.unavailable, false, false, fun _ => none⟩
      ["house".toList] ("es".toList)).2 (by simp)⟩

theorem contains_true_iff_mem (l : List Str) (a : Str) :
    l.contains a = true ↔ a ∈ l := by
  simp [List.contains_eq_any_beq, List.any_eq_true]

theorem fallback_subset (shuffle : List Str → List Str)
    (candidateWords : List Str) (d : DifficultyLevel)
    (hperm : List.Perm (shuffle candidateWords) candidateWords) :
    ∀ w ∈ fallbackWordSelection shuffle candidateWords d,
      w ∈ candidateWords := by
  intro w hw
  cases d with
  | beginner =>
    simp only [fallbackWordSelection] at hw
    have h := List.take_subset _ _ hw
    rwa [List.mem_mergeSort] at h
  | advanced =>
    simp only [fallbackWordSelection] at hw
    have h := List.take_subset _ _ hw
    rwa [List.mem_mergeSort] at h
  | intermediate =>
    simp only [fallbackWordSelection] at hw
    exact hperm.mem_iff.mp (List.take_subset _ _ hw)

theorem fallback_length_le (shuffle : List Str → List Str)
    (candidateWords : List Str) (d : DifficultyLevel) :
    (fallbackWordSelection shuffle candidateWords d).length ≤
      getWordCountForDifficulty d := by
  cases d <;> simp [fallbackWordSelection, List.length_take]

/-- C5. Whenever the model path cannot complete (no parsable JSON
array / non-array result, empty result, unavailable or still-downloading
model, or missing user activation on the downloadable path), selection
equals the deterministic fallback, and the fallback is exactly: sort by
length ascending (beginner), descending (advanced), or shuffle
(intermediate), then take the first target-count words. -/
theorem selectWords_fallback_branches :
    ∀ (env : SelectEnv) (candidateWords : List Str) (d : DifficultyLevel),
      (env.modelResponseWords = none ∨ env.modelResponseWords = some [] ∨
       env.availability = .unavailable ∨ env.availability = .downloading ∨
       (env.availability = .downloadable ∧ env.userActive = false)) →
      selectWordsWithAI env candidateWords d =
        fallbackWordSelection env.shuffle candidateWords d ∧
      fallbackWordSelection env.shuffle candidateWords d =
        (match d with
         | .beginner =>
             candidateWords.mergeSort (fun a b => a.length ≤ b.length)
         | .advanced =>
             candidateWords.mergeSort (fun a b => b.length ≤ a.length)
         | .intermediate => env.shuffle candidateWords).take
          (getWordCountForDifficulty d) := by
  intro env candidateWords d h
  constructor
  · rcases h with h | h | h | h | ⟨h, hu⟩ <;>
      cases hav : env.availability <;>
      by_cases ht : env.modelThrows <;>
      by_cases hu2 : env.userActive <;>
      simp_all [selectWordsWithAI]
  · cases d <;> simp [fallbackWordSelection, take_min_length,
      getWordCountForDifficulty]

/-- Witness for `selectWords_fallback_branches`: with the model
unavailable, selection is the fallback on a concrete input. -/
theorem selectWords_fallback_branches_witness :
    selectWordsWithAI ⟨.unavailable, false, false, none, fun l => l⟩
        ["aaaa".toList] .beginner =
      fallbackWordSelection (fun l => l) ["aaaa".toList] .beginner ∧
    fallbackWordSelection (fun l => l) ["aaaa".toList] .beginner =
      (["aaaa".toList].mergeSort (fun a b => a.length ≤ b.length)).take 15 :=
  selectWords_fallback_branches
    ⟨.unavailable, false, false, none, fun l => l⟩ ["aaaa".toList] .beginner
    (Or.inr (Or.inr (Or.inl rfl)))

/-- C1 (counterexample). On the model path, `selectWordsWithAI` does
not clamp its result to the difficulty's target count: with sixteen
candidates and a model response naming all sixteen, the beginner-level
selection returns sixteen words, exceeding the target of fifteen. -/
theorem selectWords_count_counterexample :
    ¬ ((selectWordsWithAI
        ⟨.available, false, false,
         some (["aaaa", "aaab", "aaac", "aaad", "aaae", "aaaf", "aaag",
                "aaah", "aaai", "aaaj", "aaak", "aaal", "aaam", "aaan",
                "aaao", "aaap"].map String.toList),
         fun l => l⟩
        (["aaaa", "aaab", "aaac", "aaad", "aaae", "aaaf", "aaag",
          "aaah", "aaai", "aaaj", "aaak", "aaal", "aaam", "aaan",
          "aaao", "aaap"].map String.toList)
        .beginner).length ≤ getWordCountForDifficulty .beginner) := by
  decide

/-- C1 (amended). Every word returned by `selectWordsWithAI` (on
either path) is a member of the candidate list under case-insensitive
comparison, and the fallback path's result size is at most the
difficulty's target count (clamped to the available candidates); the
model path's size is not clamped (see the counterexample). -/
theorem selectWords_membership_and_fallback_bound :
    ∀ (env : SelectEnv) (candidateWords : List Str) (d : DifficultyLevel),
      List.Perm (env.shuffle candidateWords) candidateWords →
      (∀ w ∈ selectWordsWithAI env candidateWords d,
          ∃ c ∈ candidateWords, lowerStr w = lowerStr c) ∧
      (fallbackWordSelection env.shuffle candidateWords d).length ≤
        getWordCountForDifficulty d := by
  intro env candidateWords d hperm
  refine ⟨?_, fallback_length_le env.shuffle candidateWords d⟩
  intro w hw
  have hfb : w ∈ fallbackWordSelection env.shuffle candidateWords d →
      ∃ c ∈ candidateWords, lowerStr w = lowerStr c := fun hw' =>
    ⟨w, fallback_subset env.shuffle candidateWords d hperm w hw', rfl⟩
  have hfilter :
      w ∈ (match env.modelResponseWords with
           | none => ([] : List Str)
           | some sel =>
              sel.filter (fun x => candidateWords.contains (lowerStr x))) →
      ∃ c ∈ candidateWords, lowerStr w = lowerStr c := by
    intro hmem
    cases hmr : env.modelResponseWords with
    | none => rw [hmr] at hmem; cases hmem
    | some sel =>
      rw [hmr] at hmem
      have hcond := (List.mem_filter.mp hmem).2
      rw [contains_true_iff_mem] at hcond
      exact ⟨lowerStr w, hcond, (lowerStr_idem w).symm⟩
  unfold selectWordsWithAI at hw
  cases hav : env.availability <;> rw [hav] at hw <;>
    by_cases ht : env.modelThrows <;> simp only [ht, if_true, if_false] at hw
  · exact hfb hw
  · cases hmr : env.modelResponseWords with
    | none => rw [hmr] at hw; exact hfb hw
    | some sel =>
      rw [hmr] at hw
      by_cases hse : sel.isEmpty <;> simp only [hse, if_true, if_false] at hw
      · exact hfb hw
      · exact hfilter (by rw [hmr]; exact hw)
  · by_cases hu : env.userActive <;> simp only [hu, if_true, if_false] at hw
    · exact hfb hw
    · exact hfb hw
  · by_cases hu : env.userActive <;> simp only [hu, if_true, if_false] at hw
    · cases hmr : env.modelResponseWords with
      | none => rw [hmr] at hw; exact hfb hw
      | some sel =>
        rw [hmr] at hw
        by_cases hse : sel.isEmpty <;> simp only [hse, if_true, if_false] at hw
        · exact hfb hw
        · exact hfilter (by rw [hmr]; exact hw)
    · exact hfb hw
  · exact hfb hw
  · exact hfb hw
  · exact hfb hw
  · exact hfb hw

/-- Witness for `selectWords_membership_and_fallback_bound` at a concrete
environment whose shuffle is the identity permutation. -/
theorem selectWords_membership_witness :
    (∀ w ∈ selectWordsWithAI
        ⟨.available, false, false, some ["aaaa".toList], fun l => l⟩
        ["aaaa".toList] .beginner,
      ∃ c ∈ ["aaaa".toList], lowerStr w = lowerStr c) ∧
    (fallbackWordSelection (fun l => l) ["aaaa".toList] .beginner).length ≤
      getWordCountForDifficulty .beginner :=
  selectWords_membership_and_fallback_bound
    ⟨.available, false, false, some ["aaaa".toList], fun l => l⟩
    ["aaaa".toList] .beginner (List.Perm.refl _)

theorem removeAll_noMarkers_id (l : List DNode) (h : noMarkersL l = true) :
    removeAllReplacementsL l = l := by
  induction l using removeAllReplacementsL.induct with
  | case1 => simp [removeAllReplacementsL]
  | case2 s rest ih =>
    simp only [noMarkersL] at h
    simp [removeAllReplacementsL, ih h]
  | case3 tag ed hid attrs cs rest hcond ihr =>
    simp only [noMarkersL, Bool.and_eq_true, decide_eq_true_eq] at h
    exact absurd h.1.1 (by simp [hcond.1])
  | case4 tag ed hid attrs cs rest hcond ihc ihr =>
    simp only [noMarkersL, Bool.and_eq_true, decide_eq_true_eq] at h
    simp [removeAllReplacementsL, hcond, ihc h.1.2, ihr h.2]

theorem removeAll_idem (l : List DNode) :
    removeAllReplacementsL (removeAllReplacementsL l) =
      removeAllReplacementsL l := by
  induction l using removeAllReplacementsL.induct with
  | case1 => simp [removeAllReplacementsL]
  | case2 s rest ih => simp [removeAllReplacementsL, ih]
  | case3 tag ed hid attrs cs rest hcond ihr =>
    simp [removeAllReplacementsL, hcond, ihr]
  | case4 tag ed hid attrs cs rest hcond ihc ihr =>
    simp [removeAllReplacementsL, hcond, ihc, ihr]

theorem removeAll_append (a b : List DNode) :
    removeAllReplacementsL (a ++ b) =
      removeAllReplacementsL a ++ removeAllReplacementsL b := by
  induction a using removeAllReplacementsL.induct with
  | case1 => simp [removeAllReplacementsL]
  | case2 s rest ih => simp [removeAllReplacementsL, ih]
  | case3 tag ed hid attrs cs rest hcond ihr =>
    simp [removeAllReplacementsL, hcond, ihr]
  | case4 tag ed hid attrs cs rest hcond ihc ihr =>
    simp [removeAllReplacementsL, hcond, ihr]

theorem textContentL_append (a b : List DNode) :
    textContentL (a ++ b) = textContentL a ++ textContentL b := by
  induction a using textContentL.induct with
  | case1 => simp [textContentL]
  | case2 s rest ih => simp [textContentL, ih]
  | case3 tag ed hid attrs cs rest ihc ihr => simp [textContentL, ihc, ihr]

/-- C8. `removeAllReplacements` replaces each marker (a `soma-word`
element with a non-empty stored original) by a text node holding the
stored original text; it is a no-op on a root containing no markers; and
it is idempotent. -/
theorem removeAllReplacements_spec :
    (∀ (tag : String) (ed hid : Bool) (attrs : List (String × Str))
        (cs rest : List DNode) (o : Str),
        tag = "SOMA-WORD" → getAttr attrs "data-original" = some o →
        o ≠ [] →
        removeAllReplacementsL (.elem tag ed hid attrs cs :: rest) =
          .text o :: removeAllReplacementsL rest) ∧
    (∀ root : DNode, noMarkers root = true →
        removeAllReplacements root = root) ∧
    (∀ root : DNode,
        removeAllReplacements (removeAllReplacements root) =
          removeAllReplacements root) := by
  refine ⟨?_, ?_, ?_⟩
  · intro tag ed hid attrs cs rest o htag hattr ho
    have hcond : tag = "SOMA-WORD" ∧
        (getAttr attrs "data-original").getD [] ≠ [] := by
      simp [htag, hattr, ho]
    simp [removeAllReplacementsL, hcond, hattr, ho]
  · intro root h
    cases root with
    | text s => simp [removeAllReplacements]
    | elem tag ed hid attrs cs =>
      simp only [noMarkers] at h
      simp [removeAllReplacements, removeAll_noMarkers_id cs h]
  · intro root
    cases root with
    | text s => simp [removeAllReplacements]
    | elem tag ed hid attrs cs =>
      simp [removeAllReplacements, removeAll_idem cs]

/-- Witness for `removeAllReplacements_spec`: a concrete marker is
replaced by its stored original, and a concrete marker-free root is left
unchanged. -/
theorem removeAllReplacements_spec_witness :
    removeAllReplacementsL
        [.elem "SOMA-WORD" false false [("data-original", "hi".toList)] [],
         .text ("x".toList)] =
      .text ("hi".toList) ::
        removeAllReplacementsL [.text ("x".toList)] ∧
    removeAllReplacements (.elem "BODY" false false [] [.text ("x".toList)]) =
      .elem "BODY" false false [] [.text ("x".toList)] :=
  ⟨removeAllReplacements_spec.1 "SOMA-WORD" false false
      [("data-original", "hi".toList)] [] [.text ("x".toList)]
      ("hi".toList) rfl rfl (by decide),
   removeAllReplacements_spec.2.1
      (.elem "BODY" false false [] [.text ("x".toList)])
      (by simp [noMarkers, noMarkersL])⟩

theorem icStartsWith_nonempty (w s : Str) (hw : w ≠ []) :
    icStartsWith w s = true → s ≠ [] := by
  cases w with
  | nil => exact absurd rfl hw
  | cons c cs =>
    cases s with
    | nil => simp [icStartsWith]
    | cons d ds => simp

theorem matchAt_of_firstMatchIdx (s word : Str) (i : Nat)
    (h : firstMatchIdx s word = some i) : matchAt s word i = true := by
  unfold firstMatchIdx at h
  exact List.find?_some h

theorem removeAll_splice (s word translation lang : Str) (hw : word ≠ [])
    (i : Nat) (hm : firstMatchIdx s word = some i) :
    textContentL (removeAllReplacementsL
      (replaceWordInTextNode s word translation lang)) = s := by
  have hmatch := matchAt_of_firstMatchIdx s word i hm
  unfold matchAt at hmatch
  simp only [Bool.and_eq_true] at hmatch
  have hfold : icStartsWith word (s.drop i) = true := hmatch.1.1
  have hdrop : s.drop i ≠ [] := icStartsWith_nonempty word _ hw hfold
  have hmatched : (s.drop i).take word.length ≠ [] := by
    cases hd : s.drop i with
    | nil => exact absurd hd hdrop
    | cons c t =>
      cases hwc : word with
      | nil => exact absurd hwc hw
      | cons a as => simp [hd]
  unfold replaceWordInTextNode
  rw [hm]
  simp only []
  rw [removeAll_append, removeAll_append, textContentL_append,
      textContentL_append]
  have hsoma : removeAllReplacementsL [somaWordElem ((s.drop i).take word.length)
      translation lang] = [.text ((s.drop i).take word.length)] := by
    simp [somaWordElem, removeAllReplacementsL, getAttr, hmatched]
  rw [hsoma]
  have hbefore : textContentL
      (removeAllReplacementsL
        (if (s.take i).isEmpty then ([] : List DNode)
         else [DNode.text (s.take i)])) = s.take i := by
    by_cases hb : (s.take i).isEmpty
    · rw [if_pos hb]
      rw [List.isEmpty_iff] at hb
      simp only [removeAllReplacementsL, textContentL]
      exact hb.symm
    · rw [if_neg hb]
      simp [removeAllReplacementsL, textContentL]
  have hafter : textContentL
      (removeAllReplacementsL
        (if (s.drop (i + word.length)).isEmpty then ([] : List DNode)
         else [DNode.text (s.drop (i + word.length))])) =
      s.drop (i + word.length) := by
    by_cases hb : (s.drop (i + word.length)).isEmpty
    · rw [if_pos hb]
      rw [List.isEmpty_iff] at hb
      simp only [removeAllReplacementsL, textContentL]
      exact hb.symm
    · rw [if_neg hb]
      simp [removeAllReplacementsL, textContentL]
  rw [hbefore, hafter]
  simp only [textContentL, List.append_nil]
  have hdd : s.drop (i + word.length) = (s.drop i).drop word.length := by
    rw [List.drop_drop, Nat.add_comm]
  rw [hdd, List.append_assoc, List.take_append_drop, List.take_append_drop]

theorem removeAll_replacePass (word translation lang : Str) (hw : word ≠ []) :
    ∀ (ok : Bool) (l : List DNode),
      textContentL (removeAllReplacementsL
        (replacePass word translation lang ok l)) =
      textContentL (removeAllReplacementsL l) := by
  intro ok l
  induction ok, l using replacePass.induct word translation lang with
  | case1 ok => simp [replacePass]
  | case2 ok s rest ih =>
    simp only [replacePass]
    rw [removeAll_append, textContentL_append, ih]
    by_cases hc : (ok && strTrimNonempty s &&
        (firstMatchIdx s word).isSome) = true
    · rw [if_pos hc]
      simp only [Bool.and_eq_true] at hc
      obtain ⟨i, hm⟩ := Option.isSome_iff_exists.mp hc.2
      rw [removeAll_splice s word translation lang hw i hm]
      simp [removeAllReplacementsL, textContentL]
    · rw [if_neg hc]
      simp [removeAllReplacementsL, textContentL]
  | case3 ok tag ed hid attrs cs rest ihc ihr =>
    simp only [replacePass]
    by_cases hcond : tag = "SOMA-WORD" ∧
        (getAttr attrs "data-original").getD [] ≠ []
    · simp only [removeAllReplacementsL, if_pos hcond, textContentL]
      rw [ihr]
    · simp only [removeAllReplacementsL, if_neg hcond, textContentL]
      rw [ihc, ihr]

theorem removeAll_applyFold (lang : Str) (m : List (Str × Str)) :
    ∀ (ok : Bool) (l : List DNode), (∀ p ∈ m, p.1 ≠ []) →
      textContentL (removeAllReplacementsL
        (m.foldl (fun t p => replacePass p.1 p.2 lang ok t) l)) =
      textContentL (removeAllReplacementsL l) := by
  induction m with
  | nil => simp
  | cons p ps ih =>
    intro ok l hne
    simp only [List.foldl_cons]
    rw [ih ok _ (fun q hq => hne q (List.mem_cons_of_mem p hq)),
        removeAll_replacePass p.1 p.2 lang (hne p (List.mem_cons_self p ps))
          ok l]

theorem roundtrip_textContent (m : List (Str × Str)) (lang : Str)
    (root : DNode) (hne : ∀ p ∈ m, p.1 ≠ []) (hnm : noMarkers root = true) :
    textContent (removeAllReplacements (replaceWordsInDOM m lang root)) =
      textContent root := by
  cases root with
  | text s => simp [replaceWordsInDOM, removeAllReplacements, textContent]
  | elem tag ed hid attrs cs =>
    simp only [replaceWordsInDOM, removeAllReplacements, textContent]
    rw [removeAll_applyFold lang m _ cs hne,
        removeAll_noMarkers_id cs (by simpa [noMarkers] using hnm)]

/-- C2 (amended). For every translation map whose keys are all
non-empty, applying `replaceWordsInDOM` and then `removeAllReplacements`
on a root containing no pre-existing replacement markers restores the
root's text content. -/
theorem replace_remove_roundtrip :
    ∀ (translationMap : List (Str × Str)) (targetLanguage : Str)
      (root : DNode),
      (∀ p ∈ translationMap, p.1 ≠ []) →
      noMarkers root = true →
      textContent (removeAllReplacements
        (replaceWordsInDOM translationMap targetLanguage root)) =
      textContent root := by
  intro m lang root hne hnm
  exact roundtrip_textContent m lang root hne hnm

/-- Witness for `replace_remove_roundtrip` on a concrete map and root:
replacing "house" by "casa" and removing the marker restores the text. -/
theorem replace_remove_roundtrip_witness :
    textContent (removeAllReplacements
      (replaceWordsInDOM [("house".toList, "casa".toList)] ("es".toList)
        (.elem "BODY" false false [] [.text ("the house".toList)]))) =
    textContent (.elem "BODY" false false [] [.text ("the house".toList)]) :=
  replace_remove_roundtrip [("house".toList, "casa".toList)] ("es".toList)
    (.elem "BODY" false false [] [.text ("the house".toList)])
    (by simp) (by simp [noMarkers, noMarkersL])

/-- C2 (counterexample). The round-trip law fails for a translation
map containing the empty-string key: the regex `\b\b` matches at
position 0 of "hello", a marker with an empty `data-original` is
inserted, `removeAllReplacements` skips it (empty string is falsy), and
the text content becomes "xhello". -/
theorem replace_remove_roundtrip_counterexample :
    textContent (removeAllReplacements
      (replaceWordsInDOM [(([] : Str), "x".toList)] ("es".toList)
        (.elem "BODY" false false [] [.text ("hello".toList)]))) ≠
    textContent (.elem "BODY" false false [] [.text ("hello".toList)]) := by
  have h1 : firstMatchIdx ['h', 'e', 'l', 'l', 'o'] ([] : Str) = some 0 := by
    decide
  have hap : acceptParent "BODY" false false = true := by decide
  have hst : strTrimNonempty ['h', 'e', 'l', 'l', 'o'] = true := by decide
  simp [replaceWordsInDOM, replacePass, replaceWordInTextNode, somaWordElem,
        removeAllReplacements, removeAllReplacementsL, textContent,
        textContentL, getAttr, h1, hap, hst]

/-- C7. A pipeline run with `isEnabled = false` while the page is
processed removes all markers (restoring the original text content when
the processed DOM arose from applying a map with non-empty keys to a
marker-free root) and moves the controller to the idle state
(`isProcessed = false`); from an unprocessed state, disabling is a
no-op on the DOM and `remove` is not called. -/
theorem disable_restores_and_idles :
    (∀ (env : PipelineEnv) (m : List (Str × Str)) (lang : Str)
        (root : DNode),
      env.settings.isEnabled = false →
      (∀ p ∈ m, p.1 ≠ []) → noMarkers root = true →
      processPageWithAI env true
          ⟨false, true, replaceWordsInDOM m lang root⟩ =
        (⟨false, false,
            removeAllReplacements (replaceWordsInDOM m lang root)⟩,
         ⟨true, false, false, false⟩) ∧
      textContent (processPageWithAI env true
          ⟨false, true, replaceWordsInDOM m lang root⟩).1.dom =
        textContent root) ∧
    (∀ (env : PipelineEnv) (st : PageState) (force : Bool),
      env.settings.isEnabled = false → st.isProcessing = false →
      (st.isProcessed = true → force = true →
          processPageWithAI env force st =
            (⟨false, false, removeAllReplacements st.dom⟩,
             ⟨true, false, false, false⟩)) ∧
      (st.isProcessed = false →
          processPageWithAI env force st =
            (⟨false, false, st.dom⟩, ⟨false, false, false, false⟩))) := by
  have hgen : ∀ (env : PipelineEnv) (st : PageState) (force : Bool),
      env.settings.isEnabled = false → st.isProcessing = false →
      (st.isProcessed = true → force = true →
          processPageWithAI env force st =
            (⟨false, false, removeAllReplacements st.dom⟩,
             ⟨true, false, false, false⟩)) ∧
      (st.isProcessed = false →
          processPageWithAI env force st =
            (⟨false, false, st.dom⟩, ⟨false, false, false, false⟩)) := by
    intro env st force hen hpr
    constructor
    · intro hps hf
      obtain ⟨p, q, dom⟩ := st
      simp only at hpr hps
      subst hpr hps hf
      simp [processPageWithAI, hen]
    · intro hps
      obtain ⟨p, q, dom⟩ := st
      simp only at hpr hps
      subst hpr hps
      simp [processPageWithAI, hen]
  refine ⟨?_, hgen⟩
  intro env m lang root hen hne hnm
  have h1 := (hgen env ⟨false, true, replaceWordsInDOM m lang root⟩ true
      hen rfl).1 rfl rfl
  refine ⟨h1, ?_⟩
  rw [h1]
  exact roundtrip_textContent m lang root hne hnm

/-- Witness for `disable_restores_and_idles` on a concrete disabled
environment, processed page, and unprocessed state. -/
theorem disable_restores_and_idles_witness :
    textContent (processPageWithAI
        ⟨⟨false, "es".toList, .beginner⟩,
         ⟨.unavailable, false, false, none, fun l => l⟩,
         ⟨.unavailable, false, false, fun _ => none⟩⟩ true
        ⟨false, true,
         replaceWordsInDOM [("house".toList, "casa".toList)] ("es".toList)
           (.elem "BODY" false false [] [.text ("the house".toList)])⟩).1.dom =
    textContent (.elem "BODY" false false [] [.text ("the house".toList)]) ∧
    processPageWithAI
        ⟨⟨false, "es".toList, .beginner⟩,
         ⟨.unavailable, false, false, none, fun l => l⟩,
         ⟨.unavailable, false, false, fun _ => none⟩⟩ false
        ⟨false, false, .text ("x".toList)⟩ =
      (⟨false, false, .text ("x".toList)⟩, ⟨false, false, false, false⟩) :=
  ⟨(disable_restores_and_idles.1
      ⟨⟨false, "es".toList, .beginner⟩,
       ⟨.unavailable, false, false, none, fun l => l⟩,
       ⟨.unavailable, false, false, fun _ => none⟩⟩
      [("house".toList, "casa".toList)] ("es".toList)
      (.elem "BODY" false false [] [.text ("the house".toList)])
      rfl (by simp) (by simp [noMarkers, noMarkersL])).2,
   (disable_restores_and_idles.2
      ⟨⟨false, "es".toList, .beginner⟩,
       ⟨.unavailable, false, false, none, fun l => l⟩,
       ⟨.unavailable, false, false, fun _ => none⟩⟩
      ⟨false, false, .text ("x".toList)⟩ false rfl rfl).2 rfl⟩

/-- C10 (amended). When candidate extraction or word selection comes
back empty, an enabled pipeline run returns early: translation and word
replacement are never invoked, `isProcessed` is left unchanged, and a
run starting from an unprocessed state leaves the DOM untouched (a run
re-entered from the processed state has already removed the existing
markers, which is its only DOM change); moreover `isProcessed` can
become true only through a run that performed both the translation and
the replacement steps. -/
theorem pipeline_early_return :
    (∀ (env : PipelineEnv) (st : PageState) (force : Bool),
      st.isProcessing = false →
      env.settings.isEnabled = true →
      (st.isProcessed = true → force = true) →
      (extractCandidateWords (extractPageText
          (if st.isProcessed then removeAllReplacements st.dom
           else st.dom)) = [] ∨
       selectWordsWithAI env.selEnv
          (extractCandidateWords (extractPageText
            (if st.isProcessed then removeAllReplacements st.dom
             else st.dom)))
          env.settings.difficulty = []) →
      (processPageWithAI env force st).2.translateCalled = false ∧
      (processPageWithAI env force st).2.replaceCalled = false ∧
      (processPageWithAI env force st).1.isProcessed = st.isProcessed ∧
      (st.isProcessed = false →
          (processPageWithAI env force st).1.dom = st.dom ∧
          (processPageWithAI env force st).2.removeCalled = false) ∧
      (st.isProcessed = true →
          (processPageWithAI env force st).1.dom =
            removeAllReplacements st.dom)) ∧
    (∀ (env : PipelineEnv) (st : PageState) (force : Bool),
      (processPageWithAI env force st).1.isProcessed = true →
      st.isProcessed = true ∨
        ((processPageWithAI env force st).2.translateCalled = true ∧
         (processPageWithAI env force st).2.replaceCalled = true)) := by
  constructor
  · intro env st force hpr hen hpf hempty
    obtain ⟨p, q, dom⟩ := st
    simp only at hpr hpf ⊢
    subst hpr
    cases q with
    | false =>
      have hempty' : extractCandidateWords (extractPageText dom) = [] ∨
          selectWordsWithAI env.selEnv
            (extractCandidateWords (extractPageText dom))
            env.settings.difficulty = [] := by
        simpa using hempty
      rcases hempty' with hc | hs
      · simp [processPageWithAI, hen, hc]
      · by_cases hc : extractCandidateWords (extractPageText dom) = []
        · simp [processPageWithAI, hen, hc]
        · simp [processPageWithAI, hen, hs, List.isEmpty_iff, hc]
    | true =>
      have hf : force = true := hpf rfl
      subst hf
      have hempty' : extractCandidateWords
            (extractPageText (removeAllReplacements dom)) = [] ∨
          selectWordsWithAI env.selEnv
            (extractCandidateWords
              (extractPageText (removeAllReplacements dom)))
            env.settings.difficulty = [] := by
        simpa using hempty
      rcases hempty' with hc | hs
      · simp [processPageWithAI, hen, hc]
      · by_cases hc : extractCandidateWords
            (extractPageText (removeAllReplacements dom)) = []
        · simp [processPageWithAI, hen, hc]
        · simp [processPageWithAI, hen, hs, List.isEmpty_iff, hc]
  · intro env st force
    obtain ⟨p, q, dom⟩ := st
    unfold processPageWithAI
    cases p <;> cases q <;> cases force <;>
      by_cases he : env.settings.isEnabled <;>
      simp [he] <;>
      split_ifs <;> simp_all

/-- Witness for `pipeline_early_return`: an enabled run on an empty page
from the unprocessed state performs no translation and leaves the DOM
untouched. -/
theorem pipeline_early_return_witness :
    (processPageWithAI
        ⟨⟨true, "es".toList, .beginner⟩,
         ⟨.unavailable, false, false, none, fun l => l⟩,
         ⟨.unavailable, false, false, fun _ => none⟩⟩ false
        ⟨false, false, .elem "BODY" false false [] []⟩).2.translateCalled
      = false ∧
    (processPageWithAI
        ⟨⟨true, "es".toList, .beginner⟩,
         ⟨.unavailable, false, false, none, fun l => l⟩,
         ⟨.unavailable, false, false, fun _ => none⟩⟩ false
        ⟨false, false, .elem "BODY" false false [] []⟩).1.dom =
      DNode.elem "BODY" false false [] [] := by
  have hcand : extractCandidateWords ([] : Str) = [] := by
    simp [extractCandidateWords, dedupFirst, candidateFilter]
  have h := pipeline_early_return.1
    ⟨⟨true, "es".toList, .beginner⟩,
     ⟨.unavailable, false, false, none, fun l => l⟩,
     ⟨.unavailable, false, false, fun _ => none⟩⟩
    ⟨false, false, .elem "BODY" false false [] []⟩ false rfl rfl
    (fun hq => hq)
    (Or.inl (by
      simp [extractPageText, getAllTextNodesL, List.intercalate, hcand]))
  exact ⟨h.1, (h.2.2.2.1 rfl).1⟩

/-- C10 (counterexample). A forced run from the processed state with
an empty candidate set does return early without invoking translation,
but it has already mutated the DOM: the pre-existing marker was removed
before extraction, so "without any DOM mutation" fails. -/
theorem pipeline_early_return_counterexample :
    extractCandidateWords (extractPageText (removeAllReplacements
      (.elem "BODY" false false []
        [.elem "SOMA-WORD" false false [("data-original", ['h', 'i'])]
          [.text (['x'])]]))) = [] ∧
    (processPageWithAI
        ⟨⟨true, "es".toList, .beginner⟩,
         ⟨.unavailable, false, false, none, fun l => l⟩,
         ⟨.unavailable, false, false, fun _ => none⟩⟩ true
        ⟨false, true,
         .elem "BODY" false false []
           [.elem "SOMA-WORD" false false [("data-original", ['h', 'i'])]
             [.text (['x'])]]⟩).2.translateCalled = false ∧
    textContent (processPageWithAI
        ⟨⟨true, "es".toList, .beginner⟩,
         ⟨.unavailable, false, false, none, fun l => l⟩,
         ⟨.unavailable, false, false, fun _ => none⟩⟩ true
        ⟨false, true,
         .elem "BODY" false false []
           [.elem "SOMA-WORD" false false [("data-original", ['h', 'i'])]
             [.text (['x'])]]⟩).1.dom ≠
      textContent
        (.elem "BODY" false false []
          [.elem "SOMA-WORD" false false [("data-original", ['h', 'i'])]
            [.text (['x'])]]) := by
  have hrm : removeAllReplacements
      (.elem "BODY" false false []
        [.elem "SOMA-WORD" false false [("data-original", ['h', 'i'])]
          [.text ['x']]]) =
      .elem "BODY" false false [] [.text ['h', 'i']] := by
    simp [removeAllReplacements, removeAllReplacementsL, getAttr]
  have hb : acceptParent "BODY" false false = true := by decide
  have hs : strTrimNonempty ['h', 'i'] = true := by decide
  have hpt : extractPageText (.elem "BODY" false false [] [.text ['h', 'i']]) =
      ['h', 'i'] := by
    simp [extractPageText, getAllTextNodesL, hb, hs, List.intercalate]
  have hcand : extractCandidateWords ['h', 'i'] = [] := by decide

  refine ⟨by rw [hrm, hpt]; exact hcand, ?_, ?_⟩
  · simp [processPageWithAI, hrm, hpt, hcand]
  · simp [processPageWithAI, hrm, hpt, hcand, textContent, textContentL]
